import Mathlib

/-!
Shallow embedding of the automaton-evaluation engine (edge normalizer,
determinism validator, traversal simulator, result builder) of the
Automaton repository, together with theorems checking the specification
claims against it.

Modelling choices:
  * JavaScript strings that undergo character operations (edge labels and
    the input string) are lists of characters; identifiers and node labels
    are plain strings wrapped in an id type.
  * The uuid generator used for synthetic ids is modelled as a counter
    producing ids in a constructor (Uid.synth) disjoint from the
    caller-supplied string ids (Uid.user), reflecting the collision-free
    id generation the specification mandates.
  * The two distinct runtime failures (the deliberate TypeError thrown by
    the entry point when the shape check fails, and the crash from reading
    a property of undefined when the normalization loop indexes past the
    end of the shrunken edge array) are modelled as distinct error values
    of an Except result.
-/

namespace AutomatonDFA

/-- Identifier space: caller-supplied string ids and synthetic uuid ids. -/
inductive Uid where
  | user (s : String)
  | synth (n : Nat)
deriving DecidableEq

/-- NODE data model: id, label, optional final flag (absence means false). -/
structure Node where
  id : Uid
  label : String
  final : Bool
deriving DecidableEq

/-- EDGE data model: id, source, destination, label. -/
structure Edge where
  id : Uid
  «from» : Uid
  «to» : Uid
  label : List Char
deriving DecidableEq

/-- A member of the supplied value: absent, present but not a DataSet
    instance, or a DataSet holding the items. -/
inductive JsMember (α : Type) where
  | missing
  | presentNotDataSet
  | dataSet (items : α)
deriving DecidableEq

/-- The value handed to computeDFA: a record with nodes and edges members. -/
structure AutomataData where
  nodes : JsMember (List Node)
  edges : JsMember (List Edge)
deriving DecidableEq

/-- The two runtime failures: the deliberate TypeError of the shape check,
    and the crash from reading a property of undefined. -/
inductive JsError where
  | invalidInputType
  | undefinedAccess
deriving DecidableEq

/-- The verdict record; optional fields model field presence. -/
structure DfaResponse where
  valid : Bool
  accepted : Option Bool
  acceptedNodeLabel : Option String
deriving DecidableEq

/-- isAutomataData: nodes and edges members both present and DataSet
    instances. -/
def isAutomataData (data : AutomataData) : Bool :=
  match data.nodes, data.edges with
  | .dataSet _, .dataSet _ => true
  | _, _ => false

/-- Model of JavaScript String.prototype.split on a comma. -/
def splitOnComma : List Char → List (List Char)
  | [] => [[]]
  | c :: cs =>
    match splitOnComma cs with
    | [] => [[c]]
    | g :: gs => if c = ',' then [] :: g :: gs else (c :: g) :: gs

/-- Model of JavaScript String.prototype.trim. -/
def trimChars (s : List Char) : List Char :=
  ((s.dropWhile Char.isWhitespace).reverse.dropWhile Char.isWhitespace).reverse

/-- Condition under which preProcess expands an edge: more than one
    comma-separated sub-label, or a single sub-label longer than one
    character. -/
def needsExpansion (label : List Char) : Bool :=
  decide (1 < (splitOnComma label).length) ||
    decide (1 < ((splitOnComma label).headD []).length)

/-- The inner character loop of preProcess: builds the chain of
    single-character edges for one trimmed sub-label, threading the uuid
    counter (each new edge consumes one uuid for its id, plus one for its
    destination except for the last link, whose destination is the
    original edge target). -/
def buildChain (prevFrom edgeTo : Uid) (lab : List Char) (c : Nat) :
    List Edge × Nat :=
  match lab with
  | [] => ([], c)
  | [ch] => ([⟨Uid.synth c, prevFrom, edgeTo, [ch]⟩], c + 1)
  | ch :: rest =>
    let r := buildChain (Uid.synth (c + 1)) edgeTo rest (c + 2)
    (⟨Uid.synth c, prevFrom, Uid.synth (c + 1), [ch]⟩ :: r.1, r.2)

/-- The sub-label loop of preProcess: expands every comma-separated
    sub-label of one edge, appending the chains in order. -/
def expandSubLabels (efrom eto : Uid) : List (List Char) → Nat → List Edge × Nat
  | [], c => ([], c)
  | s :: rest, c =>
    let r1 := buildChain efrom eto (trimChars s) c
    let r2 := expandSubLabels efrom eto rest r1.2
    (r1.1 ++ r2.1, r2.2)

/-- Number of edges in a collection that the normalizer would expand. -/
def countExp (edges : List Edge) : Nat :=
  (edges.filter (fun e => needsExpansion e.label)).length

theorem splitOnComma_ne_nil (l : List Char) : splitOnComma l ≠ [] := by
  cases l with
  | nil => simp [splitOnComma]
  | cons c cs =>
    simp only [splitOnComma]
    cases h : splitOnComma cs with
    | nil => simp
    | cons g gs =>
      by_cases hc : c = ','
      · simp [hc]
      · simp [hc]

theorem noComma_splitOnComma :
    ∀ (l : List Char), ∀ s ∈ splitOnComma l, ',' ∉ s := by
  intro l
  induction l with
  | nil => intro s hs; simp [splitOnComma] at hs; simp [hs]
  | cons c cs ih =>
    intro s hs
    simp only [splitOnComma] at hs
    cases h : splitOnComma cs with
    | nil => exact absurd h (splitOnComma_ne_nil cs)
    | cons g gs =>
      rw [h] at hs
      by_cases hc : c = ','
      · simp [hc] at hs
        rcases hs with hs | hs | hs
        · simp [hs]
        · exact ih s (by rw [h]; simp [hs])
        · exact ih s (by rw [h]; simp [hs])
      · simp [hc] at hs
        rcases hs with hs | hs
        · subst hs
          intro hmem
          rcases List.mem_cons.mp hmem with h1 | h1
          · exact hc h1.symm
          · exact ih g (by rw [h]; simp) h1
        · exact ih s (by rw [h]; simp [hs])

theorem mem_of_mem_trimChars {a : Char} {s : List Char}
    (h : a ∈ trimChars s) : a ∈ s := by
  unfold trimChars at h
  rw [List.mem_reverse] at h
  have h1 := (List.dropWhile_sublist Char.isWhitespace).mem h
  rw [List.mem_reverse] at h1
  exact (List.dropWhile_sublist Char.isWhitespace).mem h1

theorem splitOnComma_eq_single :
    ∀ (l : List Char), (splitOnComma l).length = 1 → splitOnComma l = [l] := by
  intro l
  induction l with
  | nil => intro _; rfl
  | cons c cs ih =>
    intro hlen
    simp only [splitOnComma] at hlen ⊢
    cases h : splitOnComma cs with
    | nil => exact absurd h (splitOnComma_ne_nil cs)
    | cons g gs =>
      rw [h] at hlen
      by_cases hc : c = ','
      · simp [hc] at hlen
      · simp [hc] at hlen ⊢
        subst hlen
        have := ih (by rw [h]; rfl)
        rw [h] at this
        simp at this
        simp [this]

theorem buildChain_mem_label :
    ∀ (lab : List Char) (f t : Uid) (c : Nat) (e : Edge),
      e ∈ (buildChain f t lab c).1 → ∃ ch ∈ lab, e.label = [ch] := by
  intro lab
  induction lab with
  | nil => intro f t c e he; simp [buildChain] at he
  | cons ch rest ih =>
    intro f t c e he
    cases rest with
    | nil =>
      simp [buildChain] at he
      exact ⟨ch, by simp, by simp [he]⟩
    | cons ch2 rest2 =>
      simp only [buildChain] at he
      rcases List.mem_cons.mp he with h1 | h1
      · exact ⟨ch, by simp, by simp [h1]⟩
      · rcases ih (Uid.synth (c + 1)) t (c + 2) e h1 with ⟨ch', hmem, hlab⟩
        exact ⟨ch', by simp [hmem], hlab⟩

theorem buildChain_mem_id :
    ∀ (lab : List Char) (f t : Uid) (c : Nat) (e : Edge),
      e ∈ (buildChain f t lab c).1 → ∃ k, e.id = Uid.synth k := by
  intro lab
  induction lab with
  | nil => intro f t c e he; simp [buildChain] at he
  | cons ch rest ih =>
    intro f t c e he
    cases rest with
    | nil =>
      simp [buildChain] at he
      exact ⟨c, by simp [he]⟩
    | cons ch2 rest2 =>
      simp only [buildChain] at he
      rcases List.mem_cons.mp he with h1 | h1
      · exact ⟨c, by simp [h1]⟩
      · exact ih (Uid.synth (c + 1)) t (c + 2) e h1

theorem buildChain_length :
    ∀ (lab : List Char) (f t : Uid) (c : Nat),
      (buildChain f t lab c).1.length = lab.length := by
  intro lab
  induction lab with
  | nil => intro f t c; simp [buildChain]
  | cons ch rest ih =>
    intro f t c
    cases rest with
    | nil => simp [buildChain]
    | cons ch2 rest2 =>
      simp only [buildChain, List.length_cons]
      rw [ih (Uid.synth (c + 1)) t (c + 2)]
      simp

theorem expandSubLabels_mem :
    ∀ (subs : List (List Char)) (f t : Uid) (c : Nat) (e : Edge),
      e ∈ (expandSubLabels f t subs c).1 →
      ∃ s ∈ subs, ∃ ch ∈ trimChars s, e.label = [ch] := by
  intro subs
  induction subs with
  | nil => intro f t c e he; simp [expandSubLabels] at he
  | cons s rest ih =>
    intro f t c e he
    simp only [expandSubLabels, List.mem_append] at he
    rcases he with h1 | h1
    · rcases buildChain_mem_label (trimChars s) f t c e h1 with ⟨ch, hmem, hlab⟩
      exact ⟨s, by simp, ch, hmem, hlab⟩
    · rcases ih f t (buildChain f t (trimChars s) c).2 e h1 with ⟨s', hs', hrest⟩
      exact ⟨s', by simp [hs'], hrest⟩

theorem expandSubLabels_mem_id :
    ∀ (subs : List (List Char)) (f t : Uid) (c : Nat) (e : Edge),
      e ∈ (expandSubLabels f t subs c).1 → ∃ k, e.id = Uid.synth k := by
  intro subs
  induction subs with
  | nil => intro f t c e he; simp [expandSubLabels] at he
  | cons s rest ih =>
    intro f t c e he
    simp only [expandSubLabels, List.mem_append] at he
    rcases he with h1 | h1
    · exact buildChain_mem_id (trimChars s) f t c e h1
    · exact ih f t (buildChain f t (trimChars s) c).2 e h1

theorem needsExpansion_single {ch : Char} (h : ch ≠ ',') :
    needsExpansion [ch] = false := by
  have hs : splitOnComma [ch] = [[ch]] := by
    simp [splitOnComma, h]
  simp [needsExpansion, hs]

/-- Every edge appended for an edge label during expansion carries a
    single non-comma character, hence is itself never expanded. -/
theorem appended_no_expansion (l : List Char) (f t : Uid) (c : Nat) :
    ∀ e ∈ (expandSubLabels f t (splitOnComma l) c).1,
      needsExpansion e.label = false := by
  intro e he
  rcases expandSubLabels_mem (splitOnComma l) f t c e he with ⟨s, hs, ch, hch, hlab⟩
  have hnc : ',' ∉ s := noComma_splitOnComma l s hs
  have : ch ≠ ',' := by
    intro hcomma
    exact hnc (hcomma ▸ mem_of_mem_trimChars hch)
  rw [hlab]
  exact needsExpansion_single this

theorem countExp_append (a b : List Edge) :
    countExp (a ++ b) = countExp a + countExp b := by
  simp [countExp]

theorem countExp_eq_zero {a : List Edge}
    (h : ∀ e ∈ a, needsExpansion e.label = false) : countExp a = 0 := by
  simp only [countExp, List.length_eq_zero, List.filter_eq_nil_iff]
  intro e he
  simp [h e he]

theorem countExp_eraseIdx :
    ∀ (l : List Edge) (i : Nat) (h : i < l.length),
      needsExpansion (l.get ⟨i, h⟩).label = true →
      countExp (l.eraseIdx i) + 1 = countExp l := by
  intro l
  induction l with
  | nil => intro i h; simp at h
  | cons e rest ih =>
    intro i h hexp
    cases i with
    | zero =>
      simp only [List.get] at hexp
      simp [List.eraseIdx, countExp, List.filter_cons, hexp]
    | succ j =>
      simp only [List.get] at hexp
      have hj : j < rest.length := by simpa using h
      have := ih j hj hexp
      simp only [List.eraseIdx, countExp, List.filter_cons]
      by_cases hc : needsExpansion e.label = true
      · simp only [hc, if_true, List.length_cons]
        simp only [countExp] at this
        omega
      · simp only [Bool.not_eq_true] at hc
        simp only [hc, Bool.false_eq_true, if_false]
        simpa [countExp] using this

/-- Measure decrease for the expansion branch of the normalization loop. -/
theorem countExp_step (edges : List Edge) (i : Nat) (hlen : i < edges.length)
    (c : Nat)
    (hexp : needsExpansion (edges.get ⟨i, hlen⟩).label = true) :
    countExp ((edges ++
        (expandSubLabels (edges.get ⟨i, hlen⟩).«from» (edges.get ⟨i, hlen⟩).«to»
          (splitOnComma (edges.get ⟨i, hlen⟩).label) c).1).eraseIdx i) + 1 =
      countExp edges := by
  rw [List.eraseIdx_append_of_lt_length hlen]
  rw [countExp_append]
  rw [countExp_eq_zero (appended_no_expansion _ _ _ _)]
  rw [Nat.add_zero]
  exact countExp_eraseIdx edges i hlen hexp

/-- The scan loop of preProcess. The scan bound n is the frozen
    pre-expansion edge count; the collection is spliced at the cursor and
    appended to at the end exactly as in the source. Reading past the end
    of the (possibly shrunken) array models the JavaScript crash from
    accessing a property of undefined and yields none. -/
def preProcessLoop (n : Nat) (edges : List Edge) (i : Nat) (c : Nat) :
    Option (List Edge) :=
  if hin : i < n then
    if hlen : i < edges.length then
      if hexp : needsExpansion (edges.get ⟨i, hlen⟩).label = true then
        preProcessLoop n
          ((edges ++
            (expandSubLabels (edges.get ⟨i, hlen⟩).«from»
              (edges.get ⟨i, hlen⟩).«to»
              (splitOnComma (edges.get ⟨i, hlen⟩).label) c).1).eraseIdx i) i
          (expandSubLabels (edges.get ⟨i, hlen⟩).«from»
            (edges.get ⟨i, hlen⟩).«to»
            (splitOnComma (edges.get ⟨i, hlen⟩).label) c).2
      else
        preProcessLoop n edges (i + 1) c
    else none
  else some edges
termination_by 2 * countExp edges + (n - i)
decreasing_by
  · have h := countExp_step edges i hlen c hexp
    omega
  · omega

/-- preProcess: normalize the edge collection. The nodes parameter is
    taken (as in the source) but never touched. -/
def preProcess (nodes : List Node) (edges : List Edge) (c : Nat) :
    Option (List Edge) :=
  preProcessLoop edges.length edges 0 c

theorem preProcessLoop_done {n i : Nat} (edges : List Edge) (c : Nat)
    (h : ¬ i < n) : preProcessLoop n edges i c = some edges := by
  rw [preProcessLoop]
  exact dif_neg h

theorem preProcessLoop_oob {n i : Nat} {edges : List Edge} (c : Nat)
    (hin : i < n) (hlen : ¬ i < edges.length) :
    preProcessLoop n edges i c = none := by
  rw [preProcessLoop]
  rw [dif_pos hin, dif_neg hlen]

theorem preProcessLoop_expand {n i : Nat} {edges : List Edge} {c : Nat}
    (hin : i < n) (hlen : i < edges.length)
    (hexp : needsExpansion (edges.get ⟨i, hlen⟩).label = true) :
    preProcessLoop n edges i c =
      preProcessLoop n
        ((edges ++
          (expandSubLabels (edges.get ⟨i, hlen⟩).«from»
            (edges.get ⟨i, hlen⟩).«to»
            (splitOnComma (edges.get ⟨i, hlen⟩).label) c).1).eraseIdx i) i
        (expandSubLabels (edges.get ⟨i, hlen⟩).«from»
          (edges.get ⟨i, hlen⟩).«to»
          (splitOnComma (edges.get ⟨i, hlen⟩).label) c).2 := by
  rw [preProcessLoop]
  rw [dif_pos hin, dif_pos hlen, dif_pos hexp]

theorem preProcessLoop_advance {n i : Nat} {edges : List Edge} {c : Nat}
    (hin : i < n) (hlen : i < edges.length)
    (hexp : ¬ needsExpansion (edges.get ⟨i, hlen⟩).label = true) :
    preProcessLoop n edges i c = preProcessLoop n edges (i + 1) c := by
  rw [preProcessLoop]
  rw [dif_pos hin, dif_pos hlen, dif_neg hexp]

/-- When every edge already carries a single-character label that needs no
    expansion, the scan is a no-op. -/
theorem preProcessLoop_noop {n : Nat} {edges : List Edge} (c : Nat)
    (hall : ∀ e ∈ edges, needsExpansion e.label = false)
    (hn : n ≤ edges.length) :
    ∀ i, preProcessLoop n edges i c = some edges := by
  have key : ∀ (m i : Nat), n - i ≤ m → preProcessLoop n edges i c = some edges := by
    intro m
    induction m with
    | zero =>
      intro i h
      exact preProcessLoop_done edges c (by omega)
    | succ m ih =>
      intro i h
      by_cases hin : i < n
      · have hlen : i < edges.length := lt_of_lt_of_le hin hn
        have hexp : ¬ needsExpansion (edges.get ⟨i, hlen⟩).label = true := by
          rw [hall _ (List.get_mem edges i hlen)]
          simp
        rw [preProcessLoop_advance hin hlen hexp]
        exact ih (i + 1) (by omega)
      · exact preProcessLoop_done edges c hin
  exact fun i => key (n - i) i le_rfl

/-- Any per-edge property that holds of all edges and of everything
    appended during expansion is preserved to the normalized result. -/
theorem preProcessLoop_mem_invariant (Inv : Edge → Prop)
    (hnew : ∀ (f t : Uid) (subs : List (List Char)) (c : Nat) (e : Edge),
      e ∈ (expandSubLabels f t subs c).1 → Inv e) (n : Nat) :
    ∀ (m : Nat) (edges : List Edge) (i c : Nat) (es' : List Edge),
      2 * countExp edges + (n - i) ≤ m →
      (∀ e ∈ edges, Inv e) →
      preProcessLoop n edges i c = some es' →
      ∀ e ∈ es', Inv e := by
  intro m
  induction m with
  | zero =>
    intro edges i c es' hm hall hrun
    rw [preProcessLoop_done edges c (by omega)] at hrun
    cases hrun
    exact hall
  | succ m ih =>
    intro edges i c es' hm hall hrun
    by_cases hin : i < n
    · by_cases hlen : i < edges.length
      · by_cases hexp : needsExpansion (edges.get ⟨i, hlen⟩).label = true
        · rw [preProcessLoop_expand hin hlen hexp] at hrun
          have hmaster := countExp_step edges i hlen c hexp
          apply ih _ i _ es' (by omega) _ hrun
          intro e he
          have hsub : e ∈ edges ++
              (expandSubLabels (edges.get ⟨i, hlen⟩).«from»
                (edges.get ⟨i, hlen⟩).«to»
                (splitOnComma (edges.get ⟨i, hlen⟩).label) c).1 :=
            (List.eraseIdx_sublist _ i).mem he
          rcases List.mem_append.mp hsub with h1 | h1
          · exact hall e h1
          · exact hnew _ _ _ _ e h1
        · rw [preProcessLoop_advance hin hlen hexp] at hrun
          exact ih edges (i + 1) c es' (by omega) hall hrun
      · rw [preProcessLoop_oob c hin hlen] at hrun
        cases hrun
    · rw [preProcessLoop_done edges c hin] at hrun
      cases hrun
      exact hall

theorem expandSubLabels_length_pos (f t : Uid) (s0 : List Char)
    (rest : List (List Char)) (c : Nat) (h : trimChars s0 ≠ []) :
    0 < (expandSubLabels f t (s0 :: rest) c).1.length := by
  simp only [expandSubLabels, List.length_append, buildChain_length]
  have : 0 < (trimChars s0).length := List.length_pos.mpr h
  omega

/-- A trimmed label is nonempty only if the label is nonempty. -/
theorem trimChars_nil : trimChars [] = [] := rfl

/-- An edge that needs no expansion and whose (single) sub-label is
    nonempty after trimming has a label of length exactly one. -/
theorem single_of_no_expansion {e : Edge}
    (hgood : (∀ s ∈ splitOnComma e.label, trimChars s ≠ []) ∨
      (needsExpansion e.label = false ∧ e.label.length = 1))
    (hexp : needsExpansion e.label = false) : e.label.length = 1 := by
  rcases hgood with h | ⟨_, h1⟩
  · have hpos : 0 < (splitOnComma e.label).length :=
      List.length_pos.mpr (splitOnComma_ne_nil e.label)
    rw [needsExpansion] at hexp
    simp only [Bool.or_eq_false_iff, decide_eq_false_iff_not, not_lt] at hexp
    have hone : (splitOnComma e.label).length = 1 := by omega
    have hsingle := splitOnComma_eq_single e.label hone
    have hne : trimChars e.label ≠ [] := h e.label (by rw [hsingle]; simp)
    have hlabne : e.label ≠ [] := by
      intro hc
      rw [hc, trimChars_nil] at hne
      exact hne rfl
    have hle := hexp.2
    rw [hsingle] at hle
    simp at hle
    have : 0 < e.label.length := List.length_pos.mpr hlabne
    omega
  · exact h1

/-- Prefix of the working array already scanned past does not change when
    the cursor edge is spliced out. -/
theorem take_eraseIdx_self {l : List Edge} {i : Nat} (h : i ≤ l.length) :
    (l.eraseIdx i).take i = l.take i := by
  rw [List.eraseIdx_eq_take_drop_succ]
  rw [List.take_append_of_le_length (by simp [List.length_take]; omega)]
  rw [List.take_take]
  simp

/-- Main loop invariant: starting with edges whose expandable labels all
    have nonempty trimmed sub-labels, the scan terminates without falling
    off the array and leaves every label of length one. -/
theorem preProcessLoop_main (n : Nat) :
    ∀ (m : Nat) (edges : List Edge) (i c : Nat),
      2 * countExp edges + (n - i) ≤ m →
      n ≤ edges.length →
      (∀ e ∈ edges, (∀ s ∈ splitOnComma e.label, trimChars s ≠ []) ∨
        (needsExpansion e.label = false ∧ e.label.length = 1)) →
      (∀ e ∈ edges.take i, e.label.length = 1) →
      (∀ e ∈ edges.drop n, e.label.length = 1) →
      ∃ es', preProcessLoop n edges i c = some es' ∧
        ∀ e ∈ es', e.label.length = 1 := by
  have final : ∀ (i : Nat) (edges : List Edge), ¬ i < n →
      (∀ e ∈ edges.take i, e.label.length = 1) →
      (∀ e ∈ edges.drop n, e.label.length = 1) →
      ∀ e ∈ edges, e.label.length = 1 := by
    intro i edges hin htake hdrop e he
    have hsplit : e ∈ edges.take n ++ edges.drop n := by
      rw [List.take_append_drop]; exact he
    rcases List.mem_append.mp hsplit with h1 | h1
    · have heq : edges.take n = (edges.take i).take n := by
        rw [List.take_take]
        congr 1
        omega
      rw [heq] at h1
      exact htake e (List.mem_of_mem_take h1)
    · exact hdrop e h1
  intro m
  induction m with
  | zero =>
    intro edges i c hm hn hgood htake hdrop
    have hin : ¬ i < n := by omega
    exact ⟨edges, preProcessLoop_done edges c hin, final i edges hin htake hdrop⟩
  | succ m ih =>
    intro edges i c hm hn hgood htake hdrop
    by_cases hin : i < n
    · have hlen : i < edges.length := lt_of_lt_of_le hin hn
      by_cases hexp : needsExpansion (edges.get ⟨i, hlen⟩).label = true
      · have hgoodE := hgood _ (List.get_mem edges i hlen)
        have hsubs : ∀ s ∈ splitOnComma (edges.get ⟨i, hlen⟩).label,
            trimChars s ≠ [] := by
          rcases hgoodE with h | ⟨hf, _⟩
          · exact h
          · rw [hf] at hexp; cases hexp
        rw [preProcessLoop_expand hin hlen hexp]
        have hmeas := countExp_step edges i hlen c hexp
        have hlenE : 0 <
            (expandSubLabels (edges.get ⟨i, hlen⟩).«from»
              (edges.get ⟨i, hlen⟩).«to»
              (splitOnComma (edges.get ⟨i, hlen⟩).label) c).1.length := by
          cases hsp : splitOnComma (edges.get ⟨i, hlen⟩).label with
          | nil => exact absurd hsp (splitOnComma_ne_nil _)
          | cons s0 r =>
            exact expandSubLabels_length_pos _ _ _ _ _
              (hsubs s0 (by rw [hsp]; simp))
        apply ih
        · omega
        · rw [List.length_eraseIdx_of_lt (by rw [List.length_append]; omega),
            List.length_append]
          omega
        · intro e' he'
          have hsub : e' ∈ edges ++
              (expandSubLabels (edges.get ⟨i, hlen⟩).«from»
                (edges.get ⟨i, hlen⟩).«to»
                (splitOnComma (edges.get ⟨i, hlen⟩).label) c).1 :=
            (List.eraseIdx_sublist _ i).mem he'
          rcases List.mem_append.mp hsub with h1 | h1
          · exact hgood e' h1
          · right
            refine ⟨appended_no_expansion _ _ _ _ e' h1, ?_⟩
            rcases expandSubLabels_mem _ _ _ _ e' h1 with ⟨s, _, ch, _, hlab⟩
            simp [hlab]
        · intro e' he'
          rw [List.eraseIdx_append_of_lt_length hlen] at he'
          rw [List.take_append_of_le_length
            (by rw [List.length_eraseIdx_of_lt hlen]; omega)] at he'
          rw [take_eraseIdx_self (le_of_lt hlen)] at he'
          exact htake e' he'
        · intro e' he'
          rw [List.eraseIdx_append_of_lt_length hlen] at he'
          rw [List.drop_append_eq_append_drop] at he'
          rcases List.mem_append.mp he' with h1 | h1
          · rw [List.eraseIdx_eq_take_drop_succ] at h1
            rw [List.drop_append_eq_append_drop] at h1
            rcases List.mem_append.mp h1 with h2 | h2
            · rw [List.drop_eq_nil_of_le
                (by simp [List.length_take]; omega)] at h2
              cases h2
            · rw [List.drop_drop] at h2
              have hidx : (i + 1) + (n - (edges.take i).length) = n + 1 := by
                simp [List.length_take]
                omega
              rw [hidx] at h2
              have : e' ∈ edges.drop n := by
                have hd : edges.drop (n + 1) = (edges.drop n).drop 1 := by
                  rw [List.drop_drop]
                rw [hd] at h2
                exact List.mem_of_mem_drop h2
              exact hdrop e' this
          · have h2 := List.mem_of_mem_drop h1
            rcases expandSubLabels_mem _ _ _ _ e' h2 with ⟨s, _, ch, _, hlab⟩
            simp [hlab]
      · rw [preProcessLoop_advance hin hlen hexp]
        apply ih
        · omega
        · exact hn
        · exact hgood
        · intro e' he'
          rw [List.take_succ] at he'
          rcases List.mem_append.mp he' with h1 | h1
          · exact htake e' h1
          · have hgete : edges[i]? = some (edges.get ⟨i, hlen⟩) := by
              simp [List.getElem?_eq_getElem hlen]
            rw [hgete] at h1
            simp at h1
            rw [h1]
            exact single_of_no_expansion (hgood _ (List.get_mem edges i hlen))
              (by simpa using hexp)
        · exact hdrop
    · exact ⟨edges, preProcessLoop_done edges c hin, final i edges hin htake hdrop⟩

/-- isUniqueEdges: the all-pairs scan returning false as soon as two
    transitions share source and label (outer index, inner index running
    over the later entries). -/
def isUniqueEdges : List Edge → Bool
  | [] => true
  | e :: rest =>
    rest.all (fun s =>
      !(decide (e.«from» = s.«from») && decide (e.label = s.label))) &&
      isUniqueEdges rest

/-- isValidDFA: determinism is the only check. -/
def isValidDFA (nodes : List Node) (edges : List Edge) : Bool :=
  isUniqueEdges edges

/-- generateResponse: progressive construction of the verdict record,
    mirroring the undefined-argument dispatch of the source. -/
def generateResponse (valid : Bool) (accepted : Option Bool)
    (acceptedNodeLabel : Option String) : DfaResponse :=
  if accepted = none ∧ acceptedNodeLabel = none then
    ⟨valid, none, none⟩
  else if acceptedNodeLabel = none then
    ⟨valid, accepted, none⟩
  else
    ⟨valid, accepted, acceptedNodeLabel⟩

/-- The inner edge scan of the traversal loop: first transition in
    collection order leaving the current state on the current character. -/
def findTransition (edges : List Edge) (cur : Uid) (ch : Char) : Option Edge :=
  edges.find? (fun e => decide (e.«from» = cur) && decide (e.label = [ch]))

/-- The traversal loop: consume the input left to right, following the
    matching transition, halting with none at a dead end. -/
def traverse (edges : List Edge) : Uid → List Char → Option Uid
  | cur, [] => some cur
  | cur, ch :: rest =>
    match findTransition edges cur ch with
    | some e => traverse edges e.«to» rest
    | none => none

/-- The final scan of computeDFA: first node whose id is the ending state
    and whose final flag is set. -/
def findFinalNode (nodes : List Node) (cur : Uid) : Option Node :=
  nodes.find? (fun nd => decide (nd.id = cur) && nd.final)

/-- computeDFA: shape check, snapshot, normalization, determinism check,
    traversal from the fixed start id, final-state lookup. The error
    value distinguishes the deliberate shape-check TypeError from the
    crash raised inside normalization. -/
def computeDFA (inputString : List Char) (data : AutomataData) :
    Except JsError DfaResponse :=
  match data.nodes, data.edges with
  | .dataSet nodes, .dataSet edges0 =>
    match preProcess nodes edges0 0 with
    | none => .error .undefinedAccess
    | some edges =>
      if isValidDFA nodes edges = true then
        match traverse edges (Uid.user "1") inputString with
        | none => .ok (generateResponse true (some false) none)
        | some endNode =>
          match findFinalNode nodes endNode with
          | some nd => .ok (generateResponse true (some true) (some nd.label))
          | none => .ok (generateResponse true (some false) none)
      else
        .ok (generateResponse false none none)
  | _, _ => .error .invalidInputType

/-- computeDFA together with the caller's store after the call: the call
    works on the snapshots extracted from the store and never writes the
    store back, so the second component is the store it was given. -/
def computeDFAWithStore (inputString : List Char) (data : AutomataData) :
    Except JsError DfaResponse × AutomataData :=
  (computeDFA inputString data, data)

theorem isUniqueEdges_eq_true_iff (es : List Edge) :
    isUniqueEdges es = true ↔
      es.Pairwise (fun a b => ¬(a.«from» = b.«from» ∧ a.label = b.label)) := by
  induction es with
  | nil => simp [isUniqueEdges]
  | cons e rest ih =>
    rw [List.pairwise_cons, ← ih]
    simp only [isUniqueEdges, Bool.and_eq_true, List.all_eq_true]
    constructor
    · rintro ⟨h1, h2⟩
      refine ⟨fun b hb hcon => ?_, h2⟩
      have hx := h1 b hb
      rw [hcon.1, hcon.2] at hx
      simp at hx
    · rintro ⟨h1, h2⟩
      refine ⟨fun b hb => ?_, h2⟩
      have hx := h1 b hb
      by_cases hf : e.«from» = b.«from»
      · by_cases hl : e.label = b.label
        · exact absurd ⟨hf, hl⟩ hx
        · simp [hf, hl]
      · simp [hf]

theorem isUniqueEdges_iff_indices (es : List Edge) :
    isUniqueEdges es = true ↔
      ∀ (i j : Nat) (hi : i < es.length) (hj : j < es.length), i < j →
        ¬((es.get ⟨i, hi⟩).«from» = (es.get ⟨j, hj⟩).«from» ∧
          (es.get ⟨i, hi⟩).label = (es.get ⟨j, hj⟩).label) := by
  rw [isUniqueEdges_eq_true_iff, List.pairwise_iff_getElem]
  simp only [List.get_eq_getElem]

theorem traverse_append (edges : List Edge) :
    ∀ (a b : List Char) (cur : Uid),
      traverse edges cur (a ++ b) =
        match traverse edges cur a with
        | some mid => traverse edges mid b
        | none => none := by
  intro a
  induction a with
  | nil => intro b cur; simp [traverse]
  | cons ch rest ih =>
    intro b cur
    simp only [List.cons_append, traverse]
    cases findTransition edges cur ch with
    | some e => exact ih b e.«to»
    | none => rfl

/-- Unfolded behavior of computeDFA on a well-shaped value whose
    normalization succeeded and passed the determinism check. -/
theorem computeDFA_valid_eq {ns : List Node} {es es' : List Edge}
    (hpre : preProcess ns es 0 = some es')
    (huniq : isUniqueEdges es' = true) (input : List Char) :
    computeDFA input ⟨.dataSet ns, .dataSet es⟩ =
      .ok (match traverse es' (Uid.user "1") input with
        | none => ⟨true, some false, none⟩
        | some endNode =>
          match findFinalNode ns endNode with
          | some nd => ⟨true, some true, some nd.label⟩
          | none => ⟨true, some false, none⟩) := by
  simp only [computeDFA]
  rw [hpre]
  simp only [isValidDFA, huniq, if_true]
  cases htr : traverse es' (Uid.user "1") input with
  | none => simp [generateResponse]
  | some endNode =>
    cases hfn : findFinalNode ns endNode with
    | none => simp [hfn, generateResponse]
    | some nd => simp [hfn, generateResponse]

/-- Once normalization succeeds, every branch of computeDFA returns a
    verdict. -/
theorem computeDFA_ok_of_pre {ns : List Node} {es es' : List Edge}
    (hpre : preProcess ns es 0 = some es') (input : List Char) :
    ∃ r, computeDFA input ⟨.dataSet ns, .dataSet es⟩ = .ok r := by
  by_cases hv : isUniqueEdges es' = true
  · exact ⟨_, computeDFA_valid_eq hpre hv input⟩
  · refine ⟨generateResponse false none none, ?_⟩
    simp only [computeDFA]
    rw [hpre]
    simp only [isValidDFA]
    rw [if_neg hv]

/-- Normalization succeeds on every graph whose labels have nonempty
    trimmed sub-labels, and then all labels are single characters. -/
theorem preProcess_total (ns : List Node) {es : List Edge}
    (hgood : ∀ e ∈ es, ∀ s ∈ splitOnComma e.label, trimChars s ≠ []) :
    ∃ es', preProcess ns es 0 = some es' ∧ ∀ e ∈ es', e.label.length = 1 := by
  unfold preProcess
  apply preProcessLoop_main es.length (2 * countExp es + es.length) es 0 0
  · omega
  · exact le_rfl
  · exact fun e he => Or.inl (hgood e he)
  · simp
  · simp

/-- The synthetic intermediate link points generated for a chain started
    at uuid counter c: each link consumes two uuids (edge id, then
    destination), so the k-th intermediate point is counter c + 2k + 1. -/
def synthRange (c L : Nat) : List Uid :=
  (List.range L).map (fun k => Uid.synth (c + 2 * k + 1))

/-- Specification of the chain built for one trimmed sub-label: one edge
    per character; labels are the characters left to right; the sources
    are the original source followed by the synthetic intermediate points;
    the destinations are the intermediate points followed by the original
    target; the intermediate points are pairwise distinct synthetic ids. -/
def ChainSpec (f t : Uid) (lab : List Char) (c : Nat)
    (chain : List Edge) : Prop :=
  chain.length = lab.length ∧
  chain.map Edge.label = lab.map (fun ch => [ch]) ∧
  chain.map Edge.«from» = f :: synthRange c (lab.length - 1) ∧
  chain.map Edge.«to» = synthRange c (lab.length - 1) ++ [t] ∧
  (synthRange c (lab.length - 1)).Pairwise (fun a b => a ≠ b)

theorem synthRange_pairwise (c L : Nat) :
    (synthRange c L).Pairwise (fun a b => a ≠ b) := by
  refine List.Pairwise.map _ ?_ (List.pairwise_lt_range L)
  intro a b hab heq
  injection heq with h
  omega

theorem synthRange_succ (c L : Nat) :
    synthRange c (L + 1) = Uid.synth (c + 1) :: synthRange (c + 2) L := by
  unfold synthRange
  rw [List.range_succ_eq_map, List.map_cons, List.map_map]
  congr 1
  norm_num
  intro a _
  omega

theorem buildChain_counter :
    ∀ (lab : List Char) (f t : Uid) (c : Nat), lab ≠ [] →
      (buildChain f t lab c).2 = c + 2 * lab.length - 1 := by
  intro lab
  induction lab with
  | nil => intro f t c h; exact absurd rfl h
  | cons ch rest ih =>
    intro f t c _
    cases rest with
    | nil => simp [buildChain]
    | cons ch2 rest2 =>
      simp only [buildChain]
      rw [ih (Uid.synth (c + 1)) t (c + 2) (by simp)]
      simp only [List.length_cons]
      omega

theorem buildChain_chainSpec (t : Uid) :
    ∀ (lab : List Char) (f : Uid) (c : Nat), lab ≠ [] →
      ChainSpec f t lab c (buildChain f t lab c).1 := by
  intro lab
  induction lab with
  | nil => intro f c h; exact absurd rfl h
  | cons ch rest ih =>
    intro f c _
    cases rest with
    | nil =>
      refine ⟨?_, ?_, ?_, ?_, ?_⟩ <;>
        simp [buildChain, synthRange]
    | cons ch2 rest2 =>
      obtain ⟨hlen, hlab, hfrom, hto, _⟩ :=
        ih (Uid.synth (c + 1)) (c + 2) (by simp)
      have hL : (ch :: ch2 :: rest2).length - 1 = ((ch2 :: rest2).length - 1) + 1 := by
        simp
      refine ⟨?_, ?_, ?_, ?_, ?_⟩
      · simp only [buildChain, List.length_cons, buildChain_length]
      · simp only [buildChain, List.map_cons]
        rw [hlab]
        simp
      · simp only [buildChain, List.map_cons]
        rw [hfrom, hL, synthRange_succ]
      · simp only [buildChain, List.map_cons]
        rw [hto, hL, synthRange_succ]
        simp
      · exact synthRange_pairwise c _

/-- The appended edges for one expanded transition decompose, sub-label
    by sub-label, into chains satisfying ChainSpec, with the uuid counter
    threaded left to right. -/
inductive ChainsFor (f t : Uid) :
    List (List Char) → Nat → List Edge → Nat → Prop where
  | nil (c : Nat) : ChainsFor f t [] c [] c
  | cons (s : List Char) (rest : List (List Char)) (c cmid cend : Nat)
      (chain out : List Edge) :
      ChainSpec f t (trimChars s) c chain →
      cmid = c + 2 * (trimChars s).length - 1 →
      ChainsFor f t rest cmid out cend →
      ChainsFor f t (s :: rest) c (chain ++ out) cend

theorem expandSubLabels_chains (f t : Uid) :
    ∀ (subs : List (List Char)) (c : Nat),
      (∀ s ∈ subs, trimChars s ≠ []) →
      ChainsFor f t subs c (expandSubLabels f t subs c).1
        (expandSubLabels f t subs c).2 := by
  intro subs
  induction subs with
  | nil => intro c _; exact ChainsFor.nil c
  | cons s rest ih =>
    intro c h
    have hne := h s (by simp)
    have hcs := buildChain_chainSpec t (trimChars s) f c hne
    have hcount := buildChain_counter (trimChars s) f t c hne
    have hrest := ih (buildChain f t (trimChars s) c).2
      (fun s' hs' => h s' (by simp [hs']))
    exact ChainsFor.cons s rest c (buildChain f t (trimChars s) c).2 _
      (buildChain f t (trimChars s) c).1 _ hcs hcount hrest

/-- Common ending-state analysis for a validated graph: once the
    traversal has consumed the whole input and stopped at endNode, the
    verdict is acceptance with the label of the first final node carrying
    that id, or rejection when no final node carries it. -/
theorem computeDFA_end_verdict {ns : List Node} {es es' : List Edge}
    (input : List Char) (endNode : Uid)
    (hpre : preProcess ns es 0 = some es')
    (huniq : isUniqueEdges es' = true)
    (htrav : traverse es' (Uid.user "1") input = some endNode) :
    (∀ nd, findFinalNode ns endNode = some nd →
      computeDFA input ⟨.dataSet ns, .dataSet es⟩ =
        .ok ⟨true, some true, some nd.label⟩) ∧
    ((¬ ∃ nd ∈ ns, nd.id = endNode ∧ nd.final = true) →
      computeDFA input ⟨.dataSet ns, .dataSet es⟩ =
        .ok ⟨true, some false, none⟩) := by
  have heq := computeDFA_valid_eq hpre huniq input
  simp only [htrav] at heq
  constructor
  · intro nd hnd
    simp only [hnd] at heq
    exact heq
  · intro hno
    have hfn : findFinalNode ns endNode = none := by
      rw [findFinalNode, List.find?_eq_none]
      intro nd hmem hcon
      simp only [Bool.and_eq_true, decide_eq_true_eq] at hcon
      exact hno ⟨nd, hmem, hcon.1, hcon.2⟩
    simp only [hfn] at heq
    exact heq

/- Witness fixtures: a two-state graph accepting the single character a,
   a duplicated-transition graph, and a compound-label graph. -/

def wNode1 : Node := ⟨Uid.user "1", "start", false⟩

def wNode2 : Node := ⟨Uid.user "2", "done", true⟩

def wEdgeA : Edge := ⟨Uid.user "e1", Uid.user "1", Uid.user "2", ['a']⟩

def wNs : List Node := [wNode1, wNode2]

def wEs : List Edge := [wEdgeA]

def wData : AutomataData := ⟨.dataSet wNs, .dataSet wEs⟩

theorem wPre : preProcess wNs wEs 0 = some wEs := by
  unfold preProcess
  exact preProcessLoop_noop 0 (by decide) (by decide) 0

/-- C1: on a shape-conforming graph whose normalized transitions are
    deterministic, computeDFA simulates from the fixed start id 1 along
    matching transitions; when the whole input is consumed it accepts
    with the label of the final-flagged node carrying the ending id, and
    rejects when no final node carries that id. -/
theorem computeDFA_valid_full_consumption
    (input : List Char) (ns : List Node) (es es' : List Edge) (endNode : Uid)
    (hpre : preProcess ns es 0 = some es')
    (huniq : isUniqueEdges es' = true)
    (htrav : traverse es' (Uid.user "1") input = some endNode) :
    (∀ nd, findFinalNode ns endNode = some nd →
      computeDFA input ⟨.dataSet ns, .dataSet es⟩ =
        .ok ⟨true, some true, some nd.label⟩) ∧
    ((¬ ∃ nd ∈ ns, nd.id = endNode ∧ nd.final = true) →
      computeDFA input ⟨.dataSet ns, .dataSet es⟩ =
        .ok ⟨true, some false, none⟩) :=
  computeDFA_end_verdict input endNode hpre huniq htrav

/-- Witness for C1 at the fixture graph and input a: the run ends on the
    final node labelled done and the verdict reports acceptance. -/
theorem computeDFA_valid_full_consumption_witness :
    computeDFA ['a'] wData = .ok ⟨true, some true, some "done"⟩ :=
  (computeDFA_valid_full_consumption ['a'] wNs wEs wEs (Uid.user "2")
    wPre (by decide) (by decide)).1 wNode2 (by decide)

/-- C10: on the empty input, a valid graph accepts exactly when the node
    with the start id 1 is flagged final, reporting that node's label;
    otherwise the empty input is rejected. -/
theorem computeDFA_empty_input_start_final
    (ns : List Node) (es es' : List Edge)
    (hpre : preProcess ns es 0 = some es')
    (huniq : isUniqueEdges es' = true) :
    (∀ nd, findFinalNode ns (Uid.user "1") = some nd →
      computeDFA [] ⟨.dataSet ns, .dataSet es⟩ =
        .ok ⟨true, some true, some nd.label⟩) ∧
    ((¬ ∃ nd ∈ ns, nd.id = Uid.user "1" ∧ nd.final = true) →
      computeDFA [] ⟨.dataSet ns, .dataSet es⟩ =
        .ok ⟨true, some false, none⟩) :=
  computeDFA_end_verdict [] (Uid.user "1") hpre huniq rfl

/-- Witness for C10 at the fixture graph: the start node is not final, so
    the empty input is rejected. -/
theorem computeDFA_empty_input_start_final_witness :
    computeDFA [] wData = .ok ⟨true, some false, none⟩ :=
  (computeDFA_empty_input_start_final wNs wEs wEs wPre (by decide)).2
    (by decide)

/-- C6: on a valid graph, when the traversal reaches a state with no
    outgoing transition matching the current character, computeDFA
    immediately rejects with valid true and accepted false and no label
    field, whatever the remaining characters are. -/
theorem computeDFA_dead_end_halts
    (ns : List Node) (es es' : List Edge) (pre : List Char) (ch : Char)
    (cur : Uid)
    (hpre : preProcess ns es 0 = some es')
    (huniq : isUniqueEdges es' = true)
    (hreach : traverse es' (Uid.user "1") pre = some cur)
    (hnone : ∀ e ∈ es', ¬(e.«from» = cur ∧ e.label = [ch])) :
    ∀ rest : List Char,
      computeDFA (pre ++ ch :: rest) ⟨.dataSet ns, .dataSet es⟩ =
        .ok ⟨true, some false, none⟩ := by
  intro rest
  have hft : findTransition es' cur ch = none := by
    rw [findTransition, List.find?_eq_none]
    intro e he hcon
    simp only [Bool.and_eq_true, decide_eq_true_eq] at hcon
    exact hnone e he hcon
  have htrav : traverse es' (Uid.user "1") (pre ++ ch :: rest) = none := by
    rw [traverse_append]
    simp only [hreach, traverse, hft]
  have heq := computeDFA_valid_eq hpre huniq (pre ++ ch :: rest)
  simp only [htrav] at heq
  exact heq

/-- Witness for C6 at the fixture graph: no transition leaves the start
    state on b, so the input consisting of b followed by z is rejected
    without looking at z. -/
theorem computeDFA_dead_end_halts_witness :
    computeDFA ([] ++ 'b' :: ['z']) wData = .ok ⟨true, some false, none⟩ :=
  computeDFA_dead_end_halts wNs wEs wEs [] 'b' (Uid.user "1")
    wPre (by decide) (by decide) (by decide) ['z']

/-- C4: the determinism validator returns true exactly when no two
    distinct positions of the collection hold transitions sharing both
    source and label; nothing else (self-loops, revisited targets,
    completeness) is constrained. -/
theorem isValidDFA_iff_no_duplicates (nodes : List Node) (es : List Edge) :
    isValidDFA nodes es = true ↔
      ∀ (i j : Nat) (hi : i < es.length) (hj : j < es.length), i < j →
        ¬((es.get ⟨i, hi⟩).«from» = (es.get ⟨j, hj⟩).«from» ∧
          (es.get ⟨i, hi⟩).label = (es.get ⟨j, hj⟩).label) := by
  rw [isValidDFA]
  exact isUniqueEdges_iff_indices es

/-- Witness for C4: the one-transition fixture collection has no
    duplicate pair, so the validator accepts it. -/
theorem isValidDFA_iff_no_duplicates_witness : isValidDFA wNs wEs = true :=
  (isValidDFA_iff_no_duplicates wNs wEs).mpr (by
    intro i j hi hj hij
    have hlen : wEs.length = 1 := rfl
    omega)

/-- C5: whenever the normalized collection holds two distinct transitions
    sharing source and label, computeDFA returns the verdict whose only
    populated field is valid false, for every input. -/
theorem computeDFA_duplicate_transitions_invalid
    (input : List Char) (ns : List Node) (es es' : List Edge)
    (i j : Nat) (hi : i < es'.length) (hj : j < es'.length)
    (hpre : preProcess ns es 0 = some es')
    (hij : i < j)
    (hfrom : (es'.get ⟨i, hi⟩).«from» = (es'.get ⟨j, hj⟩).«from»)
    (hlab : (es'.get ⟨i, hi⟩).label = (es'.get ⟨j, hj⟩).label) :
    computeDFA input ⟨.dataSet ns, .dataSet es⟩ = .ok ⟨false, none, none⟩ := by
  have hnu : ¬ isUniqueEdges es' = true := by
    rw [isUniqueEdges_iff_indices]
    intro hcon
    exact hcon i j hi hj hij ⟨hfrom, hlab⟩
  simp only [computeDFA]
  rw [hpre]
  simp only [isValidDFA]
  rw [if_neg hnu]
  simp [generateResponse]

def wDupEdges : List Edge :=
  [⟨Uid.user "d1", Uid.user "1", Uid.user "1", ['a']⟩,
   ⟨Uid.user "d2", Uid.user "1", Uid.user "1", ['a']⟩]

theorem wPreDup : preProcess [] wDupEdges 0 = some wDupEdges := by
  unfold preProcess
  exact preProcessLoop_noop 0 (by decide) (by decide) 0

/-- Witness for C5: a graph with the duplicated self-loop on a yields
    valid false with no further fields on an arbitrary input. -/
theorem computeDFA_duplicate_transitions_invalid_witness :
    computeDFA ['x'] ⟨.dataSet [], .dataSet wDupEdges⟩ =
      .ok ⟨false, none, none⟩ :=
  computeDFA_duplicate_transitions_invalid ['x'] [] wDupEdges wDupEdges
    0 1 (by decide) (by decide) wPreDup (by decide) (by decide) (by decide)

/-- C3: when every comma-separated sub-label of every transition label is
    nonempty after trimming, normalization completes and leaves every
    transition of the working collection with a label of length one. -/
theorem preProcess_all_labels_single
    (ns : List Node) (es es' : List Edge)
    (hgood : ∀ e ∈ es, ∀ s ∈ splitOnComma e.label, trimChars s ≠ [])
    (hpre : preProcess ns es 0 = some es') :
    ∀ e ∈ es', e.label.length = 1 := by
  obtain ⟨es'', hrun, hall⟩ := preProcess_total ns hgood
  rw [hpre] at hrun
  cases hrun
  exact hall

def wEdgeAB : Edge := ⟨Uid.user "e1", Uid.user "1", Uid.user "2", ['a', 'b']⟩

def wChainAB : List Edge :=
  [⟨Uid.synth 0, Uid.user "1", Uid.synth 1, ['a']⟩,
   ⟨Uid.synth 2, Uid.synth 1, Uid.user "2", ['b']⟩]

theorem wPreAB : preProcess [] [wEdgeAB] 0 = some wChainAB := by
  unfold preProcess
  rw [preProcessLoop_expand (by decide) (by decide) (by decide)]
  show preProcessLoop 1 wChainAB 0 3 = some wChainAB
  exact preProcessLoop_noop 3 (by decide) (by decide) 0

/-- Witness for C3: the two-character label ab expands into two edges,
    each carrying a single character. -/
theorem preProcess_all_labels_single_witness :
    (⟨Uid.synth 0, Uid.user "1", Uid.synth 1, ['a']⟩ : Edge).label.length = 1 ∧
    (⟨Uid.synth 2, Uid.synth 1, Uid.user "2", ['b']⟩ : Edge).label.length = 1 :=
  ⟨preProcess_all_labels_single [] [wEdgeAB] wChainAB (by decide) wPreAB
      _ (by decide),
   preProcess_all_labels_single [] [wEdgeAB] wChainAB (by decide) wPreAB
      _ (by decide)⟩

/-- C9: for every shape-conforming graph whose labels have nonempty
    trimmed sub-labels, the normalization scan, the validator scan and
    the traversal all terminate and computeDFA returns a verdict; no
    out-of-bounds edge access (modelled as the none outcome of the scan
    loop) occurs. -/
theorem computeDFA_always_returns_verdict
    (input : List Char) (ns : List Node) (es : List Edge)
    (hgood : ∀ e ∈ es, ∀ s ∈ splitOnComma e.label, trimChars s ≠ []) :
    ∃ r, computeDFA input ⟨.dataSet ns, .dataSet es⟩ = .ok r := by
  obtain ⟨es', hpre, _⟩ := preProcess_total ns hgood
  exact computeDFA_ok_of_pre hpre input

/-- Witness for C9 at the compound-label fixture graph. -/
theorem computeDFA_always_returns_verdict_witness :
    ∃ r, computeDFA ['a', 'b'] ⟨.dataSet [], .dataSet [wEdgeAB]⟩ = .ok r :=
  computeDFA_always_returns_verdict ['a', 'b'] [] [wEdgeAB] (by decide)

/-- C2: on an expandable transition whose trimmed sub-labels are all
    nonempty, the scan step removes the original transition (splice at
    the cursor) after appending, for each trimmed sub-label of length L,
    a chain of exactly L single-character edges whose first source is the
    original source, whose last destination is the original destination,
    whose k-th label is the k-th character, and whose L-1 intermediate
    link points are pairwise distinct freshly generated synthetic ids
    (never node records: the nodes collection is not even passed to the
    scan loop, so no node is ever added for them). -/
theorem preProcess_expansion_step
    (n : Nat) (edges : List Edge) (i c : Nat)
    (hin : i < n) (hlen : i < edges.length)
    (hexp : needsExpansion ((edges.get ⟨i, hlen⟩).label) = true)
    (hsubs : ∀ s ∈ splitOnComma (edges.get ⟨i, hlen⟩).label,
      trimChars s ≠ []) :
    preProcessLoop n edges i c =
      preProcessLoop n
        ((edges ++
          (expandSubLabels (edges.get ⟨i, hlen⟩).«from»
            (edges.get ⟨i, hlen⟩).«to»
            (splitOnComma (edges.get ⟨i, hlen⟩).label) c).1).eraseIdx i) i
        (expandSubLabels (edges.get ⟨i, hlen⟩).«from»
          (edges.get ⟨i, hlen⟩).«to»
          (splitOnComma (edges.get ⟨i, hlen⟩).label) c).2 ∧
    ChainsFor (edges.get ⟨i, hlen⟩).«from» (edges.get ⟨i, hlen⟩).«to»
      (splitOnComma (edges.get ⟨i, hlen⟩).label) c
      (expandSubLabels (edges.get ⟨i, hlen⟩).«from»
        (edges.get ⟨i, hlen⟩).«to»
        (splitOnComma (edges.get ⟨i, hlen⟩).label) c).1
      (expandSubLabels (edges.get ⟨i, hlen⟩).«from»
        (edges.get ⟨i, hlen⟩).«to»
        (splitOnComma (edges.get ⟨i, hlen⟩).label) c).2 :=
  ⟨preProcessLoop_expand hin hlen hexp,
   expandSubLabels_chains _ _ _ c hsubs⟩

/-- Witness for C2 at the compound-label fixture edge. -/
theorem preProcess_expansion_step_witness :
    preProcessLoop 1 [wEdgeAB] 0 0 =
      preProcessLoop 1
        (([wEdgeAB] ++
          (expandSubLabels (Uid.user "1") (Uid.user "2")
            (splitOnComma ['a', 'b']) 0).1).eraseIdx 0) 0
        (expandSubLabels (Uid.user "1") (Uid.user "2")
          (splitOnComma ['a', 'b']) 0).2 ∧
    ChainsFor (Uid.user "1") (Uid.user "2") (splitOnComma ['a', 'b']) 0
      (expandSubLabels (Uid.user "1") (Uid.user "2")
        (splitOnComma ['a', 'b']) 0).1
      (expandSubLabels (Uid.user "1") (Uid.user "2")
        (splitOnComma ['a', 'b']) 0).2 :=
  preProcess_expansion_step 1 [wEdgeAB] 0 0 (by decide) (by decide)
    (by decide) (by decide)

/-- Edges crashing the scan loop: the one-character label comma splits
    into two sub-labels that are both empty, so the expansion appends
    nothing, the splice shrinks the array below the frozen scan bound,
    and the next iteration reads an undefined entry. -/
def crashEdge : Edge := ⟨Uid.user "e1", Uid.user "1", Uid.user "1", [',']⟩

def crashData : AutomataData := ⟨.dataSet [], .dataSet [crashEdge]⟩

/-- Counterexample to C7 as stated: this value exposes both collection
    members (the shape check passes), yet computeDFA does not proceed to
    a normal verdict; it fails with the undefined-property-access
    TypeError raised inside normalization. -/
theorem computeDFA_members_present_crash :
    isAutomataData crashData = true ∧
    computeDFA [] crashData = .error JsError.undefinedAccess := by
  constructor
  · rfl
  · have h1 : preProcess [] [crashEdge] 0 = none := by
      unfold preProcess
      rw [preProcessLoop_expand (by decide) (by decide) (by decide)]
      exact preProcessLoop_oob _ (by decide) (by decide)
    simp only [computeDFA, crashData]
    rw [h1]

/-- Helper: a well-shaped value never produces the shape-check error. -/
theorem computeDFA_not_invalidInputType (input : List Char)
    (ns : List Node) (es : List Edge) :
    ¬ computeDFA input ⟨.dataSet ns, .dataSet es⟩ =
      .error JsError.invalidInputType := by
  intro hcon
  cases hp : preProcess ns es 0 with
  | none =>
    simp only [computeDFA, hp] at hcon
    simp at hcon
  | some es' =>
    obtain ⟨r, hr⟩ := computeDFA_ok_of_pre hp input
    rw [hr] at hcon
    simp at hcon

/-- C7 (amended): computeDFA fails with the deliberate contract-violation
    TypeError exactly when the supplied value does not expose both
    DataSet collection members; a value exposing both always passes the
    duck-typed shape check, and proceeds to a normal verdict provided the
    trimmed comma-split sub-labels of its transition labels are nonempty
    (otherwise normalization itself can fail with a different, runtime
    TypeError, as the counterexample shows). -/
theorem computeDFA_invalidInputType_iff (input : List Char)
    (data : AutomataData) :
    (computeDFA input data = .error JsError.invalidInputType ↔
      isAutomataData data = false) ∧
    (∀ ns es, data.nodes = .dataSet ns → data.edges = .dataSet es →
      (∀ e ∈ es, ∀ s ∈ splitOnComma e.label, trimChars s ≠ []) →
      ∃ r, computeDFA input data = .ok r) := by
  obtain ⟨dn, de⟩ := data
  constructor
  · cases dn with
    | dataSet ns =>
      cases de with
      | dataSet es =>
        simp only [isAutomataData]
        constructor
        · intro hcon
          exact absurd hcon (computeDFA_not_invalidInputType input ns es)
        · intro hcon
          exact absurd hcon (by simp)
      | missing => simp [computeDFA, isAutomataData]
      | presentNotDataSet => simp [computeDFA, isAutomataData]
    | missing => cases de <;> simp [computeDFA, isAutomataData]
    | presentNotDataSet => cases de <;> simp [computeDFA, isAutomataData]
  · intro ns es hn he hgood
    change dn = JsMember.dataSet ns at hn
    change de = JsMember.dataSet es at he
    subst hn
    subst he
    obtain ⟨es', hpre, _⟩ := preProcess_total ns hgood
    exact computeDFA_ok_of_pre hpre input

/-- Witness for the amended C7 at the fixture graph: no shape-check error
    and a normal verdict. -/
theorem computeDFA_invalidInputType_iff_witness :
    (computeDFA ['a'] wData = .error JsError.invalidInputType ↔
      isAutomataData wData = false) ∧
    (∃ r, computeDFA ['a'] wData = .ok r) :=
  ⟨(computeDFA_invalidInputType_iff ['a'] wData).1,
   (computeDFA_invalidInputType_iff ['a'] wData).2 wNs wEs rfl rfl
     (by decide)⟩

/-- C8: computeDFA never mutates the caller-supplied store: the store
    after a call is the store before it (the call works on snapshot
    copies), and in the working copy produced by normalization every
    transition is either one of the caller's original records, untouched,
    or a freshly materialized record carrying a synthetic id. -/
theorem computeDFA_preserves_store (input : List Char)
    (data : AutomataData) :
    (computeDFAWithStore input data).2 = data ∧
    (∀ ns es es', data.nodes = .dataSet ns → data.edges = .dataSet es →
      preProcess ns es 0 = some es' →
      ∀ e ∈ es', e ∈ es ∨ ∃ k, e.id = Uid.synth k) := by
  refine ⟨rfl, ?_⟩
  intro ns es es' _ _ hpre
  unfold preProcess at hpre
  exact preProcessLoop_mem_invariant
    (fun e => e ∈ es ∨ ∃ k, e.id = Uid.synth k)
    (fun f t subs c e he => Or.inr (expandSubLabels_mem_id subs f t c e he))
    es.length (2 * countExp es + es.length) es 0 0 es' (by omega)
    (fun e he => Or.inl he) hpre

/-- Witness for C8 at the fixture graph: the store is returned unchanged
    and the surviving normalized edge is an original record. -/
theorem computeDFA_preserves_store_witness :
    (computeDFAWithStore ['a'] wData).2 = wData ∧
    (wEdgeA ∈ wEs ∨ ∃ k, wEdgeA.id = Uid.synth k) :=
  ⟨(computeDFA_preserves_store ['a'] wData).1,
   (computeDFA_preserves_store ['a'] wData).2 wNs wEs wEs rfl rfl wPre
     wEdgeA (by decide)⟩

end AutomatonDFA
